import Mathlib

/-!
Verification of the Fast-AL-Builder symbol downloader
(`scripts/download_symbols.py`, class `SymbolDownloader`).

Strings are modelled as `List Char` (Python `str`), file contents as
`List Nat` (bytes), and the symbols directory as an association list from
filename to content.  Each definition below is a shallow embedding of the
correspondingly named Python function; network effects are parameterised
by explicit oracles (HTTP status codes, archive contents) so that the
control flow of the source is reproduced exactly.
-/

namespace FastALBuilder

/-- Python strings, modelled as character lists. -/
abbrev Str := List Char

/-- Coerce a Lean string literal to the model type. -/
def strOf (s : String) : Str := s.data

/-- Python `str.lower()` (ASCII-faithful for the inputs at hand). -/
def lowerStr (s : Str) : Str := s.map Char.toLower

/-- Python `s.replace(a, b)` for single characters: a character-wise map. -/
def replaceChar (a b : Char) (s : Str) : Str :=
  s.map (fun c => if c = a then b else c)

/-- Python `s.replace(a, "")` for a single character: a filter. -/
def removeChar (a : Char) (s : Str) : Str :=
  s.filter (fun c => c != a)

/-- Python `\w` character class, restricted to ASCII as used by the repo. -/
def isWordChar (c : Char) : Bool := c.isAlphanum || c == '_'

/-- Worker for `wordRuns`: accumulates the current word (reversed). -/
def wordRunsAux : Str → Str → List Str
  | [], acc => if acc.isEmpty then [] else [acc.reverse]
  | c :: rest, acc =>
    if isWordChar c then wordRunsAux rest (c :: acc)
    else if acc.isEmpty then wordRunsAux rest []
    else acc.reverse :: wordRunsAux rest []

/-- `re.findall(r'\w+', text)`: the maximal runs of word characters. -/
def wordRuns (s : Str) : List Str := wordRunsAux s []

/-- Python `str.capitalize()`: upper-case the first character, lower-case
the rest. -/
def capitalizeWord : Str → Str
  | [] => []
  | c :: rest => c.toUpper :: rest.map Char.toLower

/-- `normalize_name_component` from `download_from_appsource_feed`:
extract the word runs and concatenate their capitalisations. -/
def normalizeNameComponent (s : Str) : Str :=
  ((wordRuns s).map capitalizeWord).flatten

/-- Worker for `pyDedup`, carrying the set of already seen keys. -/
def pyDedupAux : List Str → List Str → List Str
  | [], _ => []
  | x :: xs, seen =>
    if x ∈ seen then pyDedupAux xs seen
    else x :: pyDedupAux xs (x :: seen)

/-- Python `list(dict.fromkeys(l))`: remove duplicates, keeping the first
occurrence of each element and the relative order. -/
def pyDedup (l : List Str) : List Str := pyDedupAux l []

/-- Search pattern 4 of `download_from_appsource_feed`: original casing
with spaces, parentheses and dots stripped from the publisher and spaces
stripped from the name. -/
def pattern4 (publisher name : Str) : Str :=
  removeChar '.' (removeChar ')' (removeChar '(' (removeChar ' ' publisher)))
    ++ strOf "." ++ removeChar ' ' name ++ strOf ".symbols"

/-- The four raw candidates of `download_from_appsource_feed`, in source
order; pattern 1 is `none` when the dependency has no identifier. -/
def searchPatternsRaw (publisher name depId : Str) : List (Option Str) :=
  [ if depId.isEmpty then none
    else some (normalizeNameComponent publisher ++ strOf "."
      ++ normalizeNameComponent name ++ strOf ".symbols." ++ depId),
    some (normalizeNameComponent publisher ++ strOf "."
      ++ normalizeNameComponent name ++ strOf ".symbols"),
    some (normalizeNameComponent publisher ++ strOf "."
      ++ normalizeNameComponent name),
    some (pattern4 publisher name) ]

/-- `search_patterns` of `download_from_appsource_feed`:
`list(dict.fromkeys(filter(None, patterns)))`. -/
def searchPatterns (publisher name depId : Str) : List Str :=
  pyDedup ((searchPatternsRaw publisher name depId).filterMap id)

/-! Filesystem model: the symbols directory as an association list from
filename to file content (a byte list).  `setFile` is `Path.write_bytes`:
it replaces the content of an existing entry or appends a new one. -/

/-- The symbols directory: filenames paired with their byte contents. -/
abbrev FS := List (Str × List Nat)

/-- Read a file (`None` when absent). -/
def getFile (fs : FS) (name : Str) : Option (List Nat) :=
  (fs.find? (fun e => e.1 == name)).map (·.2)

/-- `target_path.write_bytes(data)`: unconditional write. -/
def setFile (fs : FS) (name : Str) (content : List Nat) : FS :=
  if fs.any (fun e => e.1 == name) then
    fs.map (fun e => if e.1 == name then (name, content) else e)
  else fs ++ [(name, content)]

/-- Python `name.split('/')[-1]`: the characters after the last slash. -/
def basename (s : Str) : Str :=
  (s.reverse.takeWhile (fun c => c != '/')).reverse

/-- `check_existing_symbols`: the `*.app` files of the directory whose
size exceeds 1000 bytes. -/
def checkExistingSymbols (fs : FS) : FS :=
  (fs.filter (fun e => (strOf ".app").isSuffixOf e.1)).filter
    (fun e => e.2.length > 1000)

/-- The `*.app`-entry filter used both on archive member names and on the
final directory glob. -/
def appNamed (n : Str) : Bool := (strOf ".app").isSuffixOf n

/-- The extraction loop of `download_specific_package` (and, for a whole
archive, of `_process_nupkg_download`'s sibling): select the `.app`
members of the archive, write each one to the symbols directory under its
base filename, and report success exactly when at least one member
matched. -/
def extractAppFiles (fs : FS) (entries : List (Str × List Nat)) : Bool × FS :=
  let appFiles := entries.filter (fun e => appNamed e.1)
  if appFiles.isEmpty then (false, fs)
  else (true, appFiles.foldl (fun acc e => setFile acc (basename e.1) e.2) fs)

/-! Platform-symbol phase (`download_microsoft_symbols_simple` /
`download_symbols_via_nuget` / `download_microsoft_symbol_package`).
The network is an oracle: `setupOk` is the outcome of
`setup_microsoft_nuget_feeds`, and `packageArchives` holds, for each of
the fixed search patterns, either `none` (search or download failed) or
`some entries` (the fetched `.nupkg` archive's members). -/

/-- Network/feed oracle for the platform-symbol phase. -/
structure MSEnv where
  setupOk : Bool
  packageArchives : List (Option (List (Str × List Nat)))

/-- `download_microsoft_symbol_package` + `download_specific_package` for
one search pattern: a failed search/download changes nothing; a fetched
archive goes through `extractAppFiles`. -/
def processPackage (fs : FS) (arch : Option (List (Str × List Nat))) :
    Bool × FS :=
  match arch with
  | none => (false, fs)
  | some entries => extractAppFiles fs entries

/-- `download_symbols_via_nuget`: fail when the feeds cannot be set up,
otherwise process every package and succeed when at least one succeeded. -/
def downloadSymbolsViaNuget (env : MSEnv) (fs : FS) : Bool × FS :=
  if env.setupOk then
    let r := env.packageArchives.foldl
      (fun (acc : Nat × FS) a =>
        let p := processPackage acc.2 a
        (acc.1 + (if p.1 then 1 else 0), p.2))
      (0, fs)
    (decide (r.1 > 0), r.2)
  else (false, fs)

/-- `download_microsoft_symbols_simple`: short-circuit on plausible
existing symbols, otherwise download via the NuGet feeds. -/
def downloadMicrosoftSymbolsSimple (env : MSEnv) (fs : FS) : Bool × FS :=
  if (checkExistingSymbols fs).isEmpty then downloadSymbolsViaNuget env fs
  else (true, fs)

/-! Custom-dependency dispatcher (`download_custom_dependencies`) and the
guard of `download_from_linc_github`. -/

/-- A dependency record (`app.json` entry). -/
structure Dep where
  name : Str
  publisher : Str
  depId : Str
deriving DecidableEq

/-- Python `needle in hay` on strings: substring test. -/
def infixOf (needle : Str) : Str → Bool
  | [] => needle.isEmpty
  | c :: rest => needle.isPrefixOf (c :: rest) || infixOf needle rest

/-- `'linc' in dep_publisher.lower()`. -/
def containsLinc (pub : Str) : Bool := infixOf (strOf "linc") (lowerStr pub)

/-- `dep_publisher.lower() == 'microsoft'`. -/
def isMicrosoftPub (pub : Str) : Bool := lowerStr pub == strOf "microsoft"

/-- Which resolvers the dispatcher invoked for one dependency. -/
structure DepTrace where
  dep : Dep
  appsourceCalled : Bool
  githubCalled : Bool
deriving DecidableEq

/-- One iteration of the `download_custom_dependencies` loop, with the
two resolvers abstracted as Boolean oracles.  Returns whether the
dependency counted as satisfied together with the calls made. -/
def processDep (appsourceOk githubOk : Dep → Bool) (d : Dep) :
    Bool × DepTrace :=
  if isMicrosoftPub d.publisher then (true, ⟨d, false, false⟩)
  else if appsourceOk d then (true, ⟨d, true, false⟩)
  else if containsLinc d.publisher then (githubOk d, ⟨d, true, true⟩)
  else (false, ⟨d, true, false⟩)

/-- `download_custom_dependencies`: processes every dependency and — per
the source's final `return True` — always reports success. -/
def downloadCustomDependencies (appsourceOk githubOk : Dep → Bool)
    (deps : List Dep) : Bool × List DepTrace :=
  (true, deps.map (fun d => (processDep appsourceOk githubOk d).2))

/-- The guard section of `download_from_linc_github`, with the network
part abstracted by an oracle returning the result together with the
number of HTTP requests it performed.  Missing fields and non-LINC
publishers return `False` before any request is issued. -/
def downloadFromLincGithub (net : Dep → Bool × Nat) (d : Dep) : Bool × Nat :=
  if d.name.isEmpty || d.publisher.isEmpty then (false, 0)
  else if containsLinc d.publisher then net d
  else (false, 0)

/-! GitHub fallback download (`download_nuget_package_from_github` and
its helpers `_try_github_api_download`, `_try_nuget_v3_download`,
`_try_github_basic_auth`).  The download endpoint is an oracle mapping an
authentication scheme to the HTTP status it answers and, for status 200,
whether the returned archive processes successfully
(`_process_nupkg_download`). -/

/-- The authentication schemes tried against the package-content URL. -/
inductive AuthScheme
  | bearer
  | legacyToken
  | nugetApiKey
  | basicAuth (username : Str)
deriving DecidableEq

/-- Whether a scheme is an HTTP Basic attempt. -/
def AuthScheme.isBasic : AuthScheme → Bool
  | .basicAuth _ => true
  | _ => false

/-- Download endpoint oracle: HTTP status plus, when it is 200, whether
the body is a processable archive containing an `.app` member. -/
structure DownloadEndpoint where
  status : AuthScheme → Nat
  archiveOk : AuthScheme → Bool

/-- The shared attempt loop of `_try_nuget_v3_download` and
`_try_github_basic_auth`: walk the scheme list; a non-200 status moves on
to the next scheme, a 200 returns the processing result immediately.
Produces the result together with the list of attempted schemes. -/
def tryAuthList (ep : DownloadEndpoint) : List AuthScheme → Bool × List AuthScheme
  | [] => (false, [])
  | s :: rest =>
    if ep.status s = 200 then (ep.archiveOk s, [s])
    else
      let r := tryAuthList ep rest
      (r.1, s :: r.2)

/-- The header-based auth formats of `_try_nuget_v3_download`, in source
order: `Bearer`, legacy `token` prefix, `X-NuGet-ApiKey`. -/
def nugetV3Schemes : List AuthScheme :=
  [.bearer, .legacyToken, .nugetApiKey]

/-- The username candidates of `_try_github_basic_auth`: the configured
username, when present, followed by the fixed fallbacks. -/
def basicUsernames (cfg : Option Str) : List Str :=
  (match cfg with | some u => [u] | none => []) ++
    [strOf "attieretief", strOf "token"]

/-- The Basic-auth schemes of `_try_github_basic_auth`. -/
def basicSchemes (cfg : Option Str) : List AuthScheme :=
  (basicUsernames cfg).map .basicAuth

/-- The three download methods of `download_nuget_package_from_github`,
in order: the GitHub-API probe (`apiDirectOk`, which touches the API, not
the package-content URL), then the NuGet-v3 header pass, then the
Basic-auth pass.  Returns the overall result and the schemes attempted
against the package-content download URL. -/
def githubDownloadAttempts (apiDirectOk : Bool) (cfg : Option Str)
    (ep : DownloadEndpoint) : Bool × List AuthScheme :=
  if apiDirectOk then (true, [])
  else
    let r2 := tryAuthList ep nugetV3Schemes
    if r2.1 then r2
    else
      let r3 := tryAuthList ep (basicSchemes cfg)
      (r3.1, r2.2 ++ r3.2)

/-! Placeholder synthesis (`_create_github_placeholder`) and the
filenames the GitHub fallback writes. -/

/-- Reason string used by the outer `HTTPError` handler of
`download_nuget_package_from_github`. -/
def reasonAuthRequired : Str :=
  strOf "Private package - authentication required"

/-- Reason string used by the outer generic exception handler. -/
def reasonDownloadFailed : Str := strOf "Download failed"

/-- The fixed manual-retrieval instruction text of
`_create_github_placeholder` (everything after the interpolated fields). -/
def placeholderTail : Str :=
  strOf "\n// Found in LINC GitHub NuGet packages\n//\n// Note: LINC packages are private and require GitHub authentication.\n// To download this dependency:\n//\n// 1. Generate a GitHub Personal Access Token (PAT):\n//    - Go to GitHub Settings > Developer settings > Personal access tokens\n//    - Generate token with \x27read:packages\x27 scope\n//\n// 2. Re-run with authentication:\n//    python scripts/download_symbols.py bc26 --dependencies app.json \\\n//           --github-token YOUR_TOKEN --github-username YOUR_USERNAME\n//\n// 3. Or download manually:\n//    - Contact LINC Communications for direct access\n//    - Download .app file and place in symbols folder\n"

/-- The plain-text body `_create_github_placeholder` writes, with the
package name, publisher, extension name and reason interpolated in front
of the fixed manual-retrieval instructions. -/
def placeholderContent (packageName publisher name reason : Str) : Str :=
  strOf "// LINC Package: " ++ packageName
    ++ strOf "\n// Publisher: " ++ publisher
    ++ strOf "\n// Name: " ++ name
    ++ strOf "\n// Status: " ++ reason
    ++ placeholderTail

/-- The sanitisation chain applied to both GitHub-fallback filenames:
`.replace(' ', '_').replace('(', '').replace(')', '').replace('.', '_')`. -/
def sanitizeGithubFilename (s : Str) : Str :=
  replaceChar '.' '_' (removeChar ')' (removeChar '(' (replaceChar ' ' '_' s)))

/-- The artifact filename `_process_nupkg_download` writes. -/
def githubAppFilename (publisher name : Str) : Str :=
  sanitizeGithubFilename (publisher ++ strOf "_" ++ name ++ strOf "_github.app")

/-- The filename `_create_github_placeholder` writes. -/
def githubPlaceholderFilename (publisher name : Str) : Str :=
  sanitizeGithubFilename
    (publisher ++ strOf "_" ++ name ++ strOf "_github_placeholder.app")

/-! `download_nuget_package_from_github` end to end.  The version-list
request is an oracle with four outcomes mirroring the source's control
flow: a successful (non-empty) listing, an empty listing (plain `return
False` inside the `with` block), an `HTTPError` reaching the outer
handler, or another exception reaching the outer handler.  The three
download methods never let an exception escape (each wraps its whole body
in `except Exception: return False`), so the outer handlers only ever see
errors from the version-list step. -/

/-- Outcome of the `versions_url` request. -/
inductive VersionsOutcome
  | ok (version : Str)
  | emptyList
  | httpError (code : Nat)
  | otherError
deriving DecidableEq

/-- Result of the GitHub fallback resolver: the returned Boolean and the
reason carried by the placeholder file, when one was synthesized. -/
structure GithubResult where
  success : Bool
  placeholderReason : Option Str
deriving DecidableEq

/-- `download_nuget_package_from_github`: bail out without a token;
otherwise fetch the version list, and on success run the three download
methods.  A placeholder is written only by the outer exception handlers. -/
def downloadNugetPackageFromGithub (tokenPresent : Bool)
    (vo : VersionsOutcome) (apiDirectOk : Bool) (cfg : Option Str)
    (ep : DownloadEndpoint) : GithubResult :=
  if tokenPresent then
    match vo with
    | .httpError _ => ⟨true, some reasonAuthRequired⟩
    | .otherError => ⟨true, some reasonDownloadFailed⟩
    | .emptyList => ⟨false, none⟩
    | .ok _ => ⟨(githubDownloadAttempts apiDirectOk cfg ep).1, none⟩
  else ⟨false, none⟩

/-! Package-content URL of `download_specific_package` (the AppSource /
Microsoft-feed fetcher), and the orchestrator `download_symbols`. -/

/-- The download URL built at `download_specific_package`:
`f"{package_base_url}/{package_id.lower()}/{version}/{package_id.lower()}.{version}.nupkg"`. -/
def buildDownloadUrl (base packageId version : Str) : Str :=
  base ++ strOf "/" ++ lowerStr packageId ++ strOf "/" ++ version
    ++ strOf "/" ++ lowerStr packageId ++ strOf "." ++ version
    ++ strOf ".nupkg"

/-- Modelled from the spec: the URL shape the specification prescribes,
with the version lowercased in both path segments.  Used only to compare
the source's URL against the specified one. -/
def buildDownloadUrlSpec (base packageId version : Str) : Str :=
  base ++ strOf "/" ++ lowerStr packageId ++ strOf "/" ++ lowerStr version
    ++ strOf "/" ++ lowerStr packageId ++ strOf "." ++ lowerStr version
    ++ strOf ".nupkg"

/-- Apply a list of writes (the custom-dependency phase's file output)
through `setFile`. -/
def applyWrites (fs : FS) (ws : List (Str × List Nat)) : FS :=
  ws.foldl (fun a w => setFile a w.1 w.2) fs

/-- `download_symbols`: run the platform phase, let the dependency phase
write its files (its Boolean result never reaches `success`), then glob
`*.app`; the run succeeds exactly when the platform phase succeeded and
the final glob is non-empty. -/
def downloadSymbolsRun (env : MSEnv) (depWrites : List (Str × List Nat))
    (fs : FS) : Bool × FS :=
  let m := downloadMicrosoftSymbolsSimple env fs
  let fs2 := applyWrites m.2 depWrites
  (m.1 && !(fs2.filter (fun e => appNamed e.1)).isEmpty, fs2)

/-! Concrete endpoints and inputs used by individual theorems below. -/

/-- Endpoint that answers 200 with an unprocessable archive to the Bearer
header and 200 with a good archive to every Basic attempt. -/
def epBadBearerArchive : DownloadEndpoint :=
  ⟨fun s => match s with
    | .bearer => 200
    | .basicAuth _ => 200
    | _ => 404,
   fun s => match s with
    | .bearer => false
    | _ => true⟩

/-- Endpoint accepting only Basic auth (everything processable). -/
def epBasicOnly : DownloadEndpoint :=
  ⟨fun s => match s with
    | .basicAuth _ => 200
    | _ => 404,
   fun _ => true⟩

/-- Endpoint answering 401 to the Bearer header and 200 to the legacy
token header. -/
def epUnauthorizedBearer : DownloadEndpoint :=
  ⟨fun s => match s with
    | .bearer => 401
    | .legacyToken => 200
    | _ => 404,
   fun _ => true⟩

/-- As `epUnauthorizedBearer` but answering 403 to the Bearer header and
418 to the `X-NuGet-ApiKey` header. -/
def epForbiddenBearer : DownloadEndpoint :=
  ⟨fun s => match s with
    | .bearer => 403
    | .legacyToken => 200
    | .nugetApiKey => 418
    | _ => 404,
   fun _ => true⟩

/-- Endpoint answering 404 to every scheme. -/
def epAll404 : DownloadEndpoint := ⟨fun _ => 404, fun _ => true⟩

/-- Whether a version-list outcome reaches the outer exception handlers
of `download_nuget_package_from_github`. -/
def VersionsOutcome.raisesToOuter : VersionsOutcome → Bool
  | .httpError _ => true
  | .otherError => true
  | _ => false

/-- A pre-seeded symbols directory holding a plausible (1001-byte)
sentinel artifact named `test.app`. -/
def sentinelContent : List Nat := List.replicate 1001 7

/-- The directory containing only the sentinel. -/
def sentinelFS : FS := [(strOf "test.app", sentinelContent)]

/-- An archive whose single member would extract to `test.app`. -/
def clobberEntries : List (Str × List Nat) :=
  [(strOf "symbols/test.app", [1, 2, 3])]

/-- The symbols directory contains at least one `*.app`-named file. -/
def hasAppFile (fs : FS) : Prop := ∃ e ∈ fs, appNamed e.1 = true

/-! Helper lemmas about `pyDedup`. -/

theorem pyDedupAux_sublist (l : List Str) :
    ∀ seen, List.Sublist (pyDedupAux l seen) l := by
  induction l with
  | nil => intro seen; simp [pyDedupAux]
  | cons x xs ih =>
    intro seen
    unfold pyDedupAux
    split
    · exact (ih seen).trans (List.sublist_cons_self x xs)
    · exact (ih (x :: seen)).cons₂ x

theorem mem_pyDedupAux {y : Str} {l : List Str} :
    ∀ {seen}, y ∈ pyDedupAux l seen → y ∉ seen := by
  induction l with
  | nil => intro seen h; simp [pyDedupAux] at h
  | cons x xs ih =>
    intro seen h
    unfold pyDedupAux at h
    split at h
    · exact ih h
    · rcases List.mem_cons.mp h with h | h
      · subst h; assumption
      · intro hy; exact ih h (List.mem_cons_of_mem x hy)

theorem pyDedupAux_nodup (l : List Str) :
    ∀ seen, (pyDedupAux l seen).Nodup := by
  induction l with
  | nil => intro seen; simp [pyDedupAux]
  | cons x xs ih =>
    intro seen
    unfold pyDedupAux
    split
    · exact ih seen
    · refine List.nodup_cons.mpr ⟨fun hx => ?_, ih (x :: seen)⟩
      exact mem_pyDedupAux hx (List.mem_cons_self x seen)

theorem mem_pyDedupAux_of_mem {y : Str} {l : List Str} :
    ∀ {seen}, y ∈ l → y ∉ seen → y ∈ pyDedupAux l seen := by
  induction l with
  | nil => intro seen h _; simp at h
  | cons x xs ih =>
    intro seen h hseen
    unfold pyDedupAux
    by_cases hx : x ∈ seen
    · simp only [if_pos hx]
      rcases List.mem_cons.mp h with rfl | h
      · exact absurd hx hseen
      · exact ih h hseen
    · simp only [if_neg hx]
      rcases List.mem_cons.mp h with rfl | h
      · exact List.mem_cons_self _ _
      · by_cases hyx : y = x
        · subst hyx; exact List.mem_cons_self _ _
        · exact List.mem_cons_of_mem x
            (ih h (by simp [List.mem_cons, hyx, hseen]))

theorem pyDedup_nodup (l : List Str) : (pyDedup l).Nodup :=
  pyDedupAux_nodup l []

theorem pyDedup_sublist (l : List Str) : List.Sublist (pyDedup l) l :=
  pyDedupAux_sublist l []

theorem mem_pyDedup {y : Str} {l : List Str} (h : y ∈ l) : y ∈ pyDedup l :=
  mem_pyDedupAux_of_mem h (by simp)

theorem pyDedup_cons (x : Str) (xs : List Str) :
    pyDedup (x :: xs) = x :: pyDedupAux xs [x] := by
  simp [pyDedup, pyDedupAux]

/-- C5: query-candidate generation is a deterministic, order-preserving
function of (publisher, name, identifier): the emitted list is a
duplicate-free, order-preserving selection of the raw candidates (pattern
1 with the identifier, then patterns 2-4), every raw candidate occurs in
it, with an identifier present the first candidate is the normalized
`Publisher.Name.symbols.identifier` form, and for publisher "Linc
Communications (Pty) Ltd", name "Test Extension", identifier "abc123" the
first candidate is "LincCommunicationsPtyLtd.TestExtension.symbols.abc123". -/
theorem searchPatterns_ordered_dedup :
    (∀ p n i, (searchPatterns p n i).Nodup
      ∧ List.Sublist (searchPatterns p n i)
          ((searchPatternsRaw p n i).filterMap id)
      ∧ ∀ c ∈ (searchPatternsRaw p n i).filterMap id,
          c ∈ searchPatterns p n i)
    ∧ (∀ p n i, i.isEmpty = false →
        (searchPatterns p n i).head? =
          some (normalizeNameComponent p ++ strOf "."
            ++ normalizeNameComponent n ++ strOf ".symbols." ++ i))
    ∧ (searchPatterns (strOf "Linc Communications (Pty) Ltd")
        (strOf "Test Extension") (strOf "abc123")).head?
      = some (strOf "LincCommunicationsPtyLtd.TestExtension.symbols.abc123") := by
  refine ⟨fun p n i => ⟨pyDedup_nodup _, pyDedup_sublist _, fun c hc => mem_pyDedup hc⟩,
    fun p n i hi => ?_, by decide⟩
  simp only [searchPatterns, searchPatternsRaw, hi, Bool.false_eq_true,
    if_false, List.filterMap_cons, id]
  rw [pyDedup_cons]
  rfl

/-- Witness for C5: instantiation at publisher "X (Y)", name "A B",
identifier "abc123". -/
theorem searchPatterns_ordered_dedup_witness :
    (searchPatterns (strOf "X (Y)") (strOf "A B") (strOf "abc123")).head?
      = some (strOf "XY.AB.symbols.abc123") := by
  have h := searchPatterns_ordered_dedup.2.1 (strOf "X (Y)") (strOf "A B")
    (strOf "abc123") (by decide)
  rw [h]; decide

/-- The trace produced for a dependency records that dependency. -/
theorem processDep_trace_dep (a g : Dep → Bool) (d : Dep) :
    (processDep a g d).2.dep = d := by
  unfold processDep
  split
  · rfl
  · split
    · rfl
    · split <;> rfl

/-- C3: a dependency whose publisher equals "Microsoft" case-insensitively
is skipped and counted satisfied — neither the AppSource locator/fetcher
nor the GitHub fallback resolver is invoked for it, whatever the two
resolvers would have answered. -/
theorem microsoft_dependency_skipped :
    (∀ (a g : Dep → Bool) (d : Dep), isMicrosoftPub d.publisher = true →
      processDep a g d = (true, ⟨d, false, false⟩))
    ∧ (∀ (a g : Dep → Bool) (deps : List Dep) t,
        t ∈ (downloadCustomDependencies a g deps).2 →
        isMicrosoftPub t.dep.publisher = true →
        t.appsourceCalled = false ∧ t.githubCalled = false) := by
  have h1 : ∀ (a g : Dep → Bool) (d : Dep), isMicrosoftPub d.publisher = true →
      processDep a g d = (true, ⟨d, false, false⟩) := by
    intro a g d hd
    unfold processDep
    simp [hd]
  refine ⟨h1, fun a g deps t ht hms => ?_⟩
  simp only [downloadCustomDependencies, List.mem_map] at ht
  obtain ⟨d, _, rfl⟩ := ht
  rw [processDep_trace_dep] at hms
  rw [h1 a g d hms]
  exact ⟨rfl, rfl⟩

/-- Witness for C3: a "MICROSOFT"-published dependency is skipped even
when both resolvers would succeed. -/
theorem microsoft_dependency_skipped_witness :
    processDep (fun _ => true) (fun _ => true)
        ⟨strOf "System Application", strOf "MICROSOFT", strOf "guid-1"⟩
      = (true, ⟨⟨strOf "System Application", strOf "MICROSOFT", strOf "guid-1"⟩,
          false, false⟩) :=
  microsoft_dependency_skipped.1 (fun _ => true) (fun _ => true)
    ⟨strOf "System Application", strOf "MICROSOFT", strOf "guid-1"⟩ (by decide)

/-- C2: for a dependency whose publisher does not contain "linc"
case-insensitively, the dispatcher never calls the GitHub fallback, and
the fallback itself returns `False` immediately with zero network
requests; the fallback is called exactly for dependencies that are
non-Microsoft, failed the AppSource lookup, and have a LINC publisher. -/
theorem github_fallback_only_for_linc :
    (∀ (net : Dep → Bool × Nat) (d : Dep), containsLinc d.publisher = false →
      downloadFromLincGithub net d = (false, 0))
    ∧ (∀ (a g : Dep → Bool) (deps : List Dep) t,
        t ∈ (downloadCustomDependencies a g deps).2 →
        containsLinc t.dep.publisher = false → t.githubCalled = false)
    ∧ (∀ (a g : Dep → Bool) (d : Dep),
        (processDep a g d).2.githubCalled = true →
        a d = false ∧ containsLinc d.publisher = true
          ∧ isMicrosoftPub d.publisher = false) := by
  refine ⟨fun net d hd => ?_, fun a g deps t ht hl => ?_, fun a g d hg => ?_⟩
  · unfold downloadFromLincGithub
    split
    · rfl
    · simp [hd]
  · simp only [downloadCustomDependencies, List.mem_map] at ht
    obtain ⟨d, _, rfl⟩ := ht
    rw [processDep_trace_dep] at hl
    unfold processDep
    split
    · rfl
    · split
      · rfl
      · simp [hl]
  · unfold processDep at hg
    split at hg
    · simp at hg
    · split at hg
      · simp at hg
      · split at hg
        · refine ⟨by simp_all, by assumption, by simp_all⟩
        · simp at hg

/-- Witness for C2: a non-LINC dependency with a network oracle that
would report five requests still yields zero requests and `False`. -/
theorem github_fallback_only_for_linc_witness :
    downloadFromLincGithub (fun _ => (true, 5))
        ⟨strOf "Test Extension", strOf "ACME Corp", strOf "id-9"⟩
      = (false, 0) :=
  github_fallback_only_for_linc.1 (fun _ => (true, 5))
    ⟨strOf "Test Extension", strOf "ACME Corp", strOf "id-9"⟩ (by decide)

/-- C9 counterexample: for package id "Pkg.Id" and version "1.0-RC" the
constructed URL keeps the version's original casing, so it differs from
the spec's all-lowercase form. -/
theorem buildDownloadUrl_version_not_lowercased :
    buildDownloadUrl (strOf "https://feed") (strOf "Pkg.Id") (strOf "1.0-RC")
      = strOf "https://feed/pkg.id/1.0-RC/pkg.id.1.0-RC.nupkg"
    ∧ buildDownloadUrlSpec (strOf "https://feed") (strOf "Pkg.Id") (strOf "1.0-RC")
      = strOf "https://feed/pkg.id/1.0-rc/pkg.id.1.0-rc.nupkg"
    ∧ buildDownloadUrl (strOf "https://feed") (strOf "Pkg.Id") (strOf "1.0-RC")
      ≠ buildDownloadUrlSpec (strOf "https://feed") (strOf "Pkg.Id") (strOf "1.0-RC") := by
  refine ⟨by decide, by decide, by decide⟩

/-- C9 amended: the package id is lowercased in every path segment, but
the version string is used verbatim; the URL coincides with the spec's
all-lowercase form exactly when the version is already lowercase. -/
theorem buildDownloadUrl_amended (base p v : Str) :
    buildDownloadUrl base p v
      = base ++ strOf "/" ++ lowerStr p ++ strOf "/" ++ v ++ strOf "/"
        ++ lowerStr p ++ strOf "." ++ v ++ strOf ".nupkg"
    ∧ (buildDownloadUrl base p v = buildDownloadUrlSpec base p v ↔
        lowerStr v = v) := by
  refine ⟨rfl, ?_, ?_⟩
  · intro h
    unfold buildDownloadUrl buildDownloadUrlSpec at h
    simp only [List.append_assoc] at h
    have h1 := List.append_cancel_left h
    have h2 := List.append_cancel_left h1
    have h3 := List.append_cancel_left h2
    have h4 := List.append_cancel_left h3
    have hlen : v.length = (lowerStr v).length := by
      simp [lowerStr]
    exact ((List.append_inj h4.symm hlen.symm).1).symm ▸ rfl
  · intro h
    unfold buildDownloadUrl buildDownloadUrlSpec
    rw [h]

/-! Helper lemmas for the GitHub-fallback filenames. -/

/-- The final `.replace('.', '_')` step leaves no dot anywhere. -/
theorem not_dot_mem_replaceChar (s : Str) : '.' ∉ replaceChar '.' '_' s := by
  intro h
  simp only [replaceChar, List.mem_map] at h
  obtain ⟨a, _, ha⟩ := h
  by_cases hda : a = '.'
  · simp [hda] at ha
  · simp [hda] at ha

/-- The sanitisation chain has no dot in its output. -/
theorem not_dot_mem_sanitize (s : Str) : '.' ∉ sanitizeGithubFilename s :=
  not_dot_mem_replaceChar _

/-- A string that ends in ".app" contains a dot. -/
theorem dot_mem_of_appNamed {n : Str} (h : appNamed n = true) : '.' ∈ n := by
  unfold appNamed at h
  obtain ⟨t, rfl⟩ := List.isSuffixOf_iff_suffix.mp h
  exact List.mem_append.mpr (Or.inr (by decide))

/-- Sanitising any name of the form `x ++ ".app"` yields a name of the
form `y ++ "_app"`. -/
theorem sanitize_app (x : Str) :
    sanitizeGithubFilename (x ++ strOf ".app")
      = replaceChar '.' '_' (removeChar ')' (removeChar '('
          (replaceChar ' ' '_' x))) ++ strOf "_app" := by
  unfold sanitizeGithubFilename replaceChar removeChar
  simp only [List.map_append, List.filter_append]
  rfl

/-- The sanitised GitHub filenames end in "_app", contain no dot, and are
not `*.app`-named. -/
theorem sanitize_app_props (x : Str) :
    (strOf "_app").isSuffixOf (sanitizeGithubFilename (x ++ strOf ".app")) = true
    ∧ appNamed (sanitizeGithubFilename (x ++ strOf ".app")) = false := by
  constructor
  · rw [sanitize_app]
    exact List.isSuffixOf_iff_suffix.mpr ⟨_, rfl⟩
  · by_contra h
    simp only [Bool.not_eq_false] at h
    exact not_dot_mem_sanitize _ (dot_mem_of_appNamed h)

/-- C10: every file the GitHub fallback writes — the extracted artifact
of `_process_nupkg_download` and the placeholder of
`_create_github_placeholder` — has every '.' of its computed name
replaced by '_', so it ends in "_app" rather than ".app"; consequently it
is never matched by the run summary's `*.app` glob and never counted by
the existing-symbols short-circuit check. -/
theorem github_filenames_underscore_app :
    ∀ pub nm,
      ('.' ∉ githubAppFilename pub nm)
      ∧ (strOf "_app").isSuffixOf (githubAppFilename pub nm) = true
      ∧ appNamed (githubAppFilename pub nm) = false
      ∧ ('.' ∉ githubPlaceholderFilename pub nm)
      ∧ (strOf "_app").isSuffixOf (githubPlaceholderFilename pub nm) = true
      ∧ appNamed (githubPlaceholderFilename pub nm) = false
      ∧ (∀ fs : FS, ((fs.filter (fun e => appNamed e.1)).all
          (fun e => e.1 != githubAppFilename pub nm
            && e.1 != githubPlaceholderFilename pub nm)) = true)
      ∧ (∀ fs : FS, ((checkExistingSymbols fs).all
          (fun e => e.1 != githubAppFilename pub nm
            && e.1 != githubPlaceholderFilename pub nm)) = true) := by
  intro pub nm
  have hlit1 : strOf "_github.app" = strOf "_github" ++ strOf ".app" := by decide
  have hlit2 : strOf "_github_placeholder.app"
      = strOf "_github_placeholder" ++ strOf ".app" := by decide
  have happEq : githubAppFilename pub nm
      = sanitizeGithubFilename ((pub ++ strOf "_" ++ nm ++ strOf "_github") ++ strOf ".app") := by
    unfold githubAppFilename
    rw [hlit1]
    simp [List.append_assoc]
  have hphEq : githubPlaceholderFilename pub nm
      = sanitizeGithubFilename
          ((pub ++ strOf "_" ++ nm ++ strOf "_github_placeholder") ++ strOf ".app") := by
    unfold githubPlaceholderFilename
    rw [hlit2]
    simp [List.append_assoc]
  have h1 := sanitize_app_props (pub ++ strOf "_" ++ nm ++ strOf "_github")
  have h2 := sanitize_app_props (pub ++ strOf "_" ++ nm ++ strOf "_github_placeholder")
  have hglob : ∀ fs : FS, ((fs.filter (fun e => appNamed e.1)).all
      (fun e => e.1 != githubAppFilename pub nm
        && e.1 != githubPlaceholderFilename pub nm)) = true := by
    intro fs
    rw [List.all_eq_true]
    intro e he
    have hfilt := (List.mem_filter.mp he).2
    rw [Bool.and_eq_true, bne_iff_ne, bne_iff_ne]
    constructor
    · intro heq
      rw [heq, happEq, (sanitize_app_props _).2] at hfilt
      exact Bool.false_ne_true hfilt
    · intro heq
      rw [heq, hphEq, (sanitize_app_props _).2] at hfilt
      exact Bool.false_ne_true hfilt
  refine ⟨?_, ?_, ?_, ?_, ?_, ?_, hglob, ?_⟩
  · rw [happEq]; exact not_dot_mem_sanitize _
  · rw [happEq]; exact h1.1
  · rw [happEq]; exact h1.2
  · rw [hphEq]; exact not_dot_mem_sanitize _
  · rw [hphEq]; exact h2.1
  · rw [hphEq]; exact h2.2
  · intro fs
    rw [List.all_eq_true]
    intro e he
    have he2 : e ∈ fs.filter (fun e => appNamed e.1) := by
      unfold checkExistingSymbols at he
      have := (List.mem_filter.mp he).1
      simpa [appNamed] using this
    exact (List.all_eq_true.mp (hglob fs)) e he2

/-! Helper lemmas about the authentication attempt loop. -/

/-- When every scheme of the list answers a non-200 status, the loop
walks the whole list and fails. -/
theorem tryAuthList_all_fail (ep : DownloadEndpoint) :
    ∀ l, (∀ s ∈ l, ep.status s ≠ 200) → tryAuthList ep l = (false, l) := by
  intro l
  induction l with
  | nil => intro _; rfl
  | cons s rest ih =>
    intro h
    unfold tryAuthList
    rw [if_neg (h s (List.mem_cons_self _ _))]
    rw [ih (fun x hx => h x (List.mem_cons_of_mem s hx))]

/-- The attempted schemes are an initial segment of the scheme list. -/
theorem tryAuthList_trace_isPrefix (ep : DownloadEndpoint) :
    ∀ l, List.IsPrefix (tryAuthList ep l).2 l := by
  intro l
  induction l with
  | nil => simp [tryAuthList]
  | cons s rest ih =>
    unfold tryAuthList
    by_cases h : ep.status s = 200
    · rw [if_pos h]
      exact ⟨rest, rfl⟩
    · rw [if_neg h]
      obtain ⟨t, ht⟩ := ih
      exact ⟨t, by simpa using ht⟩

/-- A successful loop run attempted a (possibly empty) block of schemes
that all answered non-200 and then one final scheme that answered 200
with a processable archive. -/
theorem tryAuthList_success (ep : DownloadEndpoint) :
    ∀ l, (tryAuthList ep l).1 = true →
      ∃ pre s, (tryAuthList ep l).2 = pre ++ [s]
        ∧ (∀ x ∈ pre, ep.status x ≠ 200)
        ∧ ep.status s = 200 ∧ ep.archiveOk s = true := by
  intro l
  induction l with
  | nil => intro h; simp [tryAuthList] at h
  | cons s rest ih =>
    intro h
    unfold tryAuthList at h ⊢
    by_cases hs : ep.status s = 200
    · rw [if_pos hs] at h ⊢
      exact ⟨[], s, rfl, by simp, hs, h⟩
    · rw [if_neg hs] at h ⊢
      obtain ⟨pre, x, htr, hpre, hx, hok⟩ := ih h
      refine ⟨s :: pre, x, by simp [htr], ?_, hx, hok⟩
      intro y hy
      rcases List.mem_cons.mp hy with rfl | hy
      · exact hs
      · exact hpre y hy

/-- Every element of the Basic-scheme list is a Basic attempt. -/
theorem basicSchemes_isBasic (cfg : Option Str) :
    ∀ x ∈ basicSchemes cfg, x.isBasic = true := by
  intro x hx
  obtain ⟨u, _, rfl⟩ := List.mem_map.mp hx
  rfl

/-- C4 counterexample theorem: the run succeeds, its final attempt is a
Basic one, yet the trace contains no legacy-token attempt at all. -/
theorem github_auth_order_counterexample :
    githubDownloadAttempts false none epBadBearerArchive
      = (true, [.bearer, .basicAuth (strOf "attieretief")])
    ∧ (githubDownloadAttempts false none epBadBearerArchive).2.getLast?
      = some (.basicAuth (strOf "attieretief"))
    ∧ AuthScheme.legacyToken ∉ (githubDownloadAttempts false none epBadBearerArchive).2 := by
  refine ⟨by decide, by decide, by decide⟩

/-- C4 amended: the schemes tried against the package-content URL are, in
fixed order, the Bearer header, the legacy token header, the
`X-NuGet-ApiKey` header, then Basic auth over the candidate usernames;
provided no header scheme answers HTTP 200, a run that succeeds does so
at a final Basic attempt preceded by exactly one Bearer and exactly one
legacy-token attempt, in that order, and by Basic attempts that all
answered non-200. -/
theorem github_auth_order_amended (cfg : Option Str) (ep : DownloadEndpoint)
    (hb : ep.status .bearer ≠ 200) (hl : ep.status .legacyToken ≠ 200)
    (hk : ep.status .nugetApiKey ≠ 200)
    (hsucc : (githubDownloadAttempts false cfg ep).1 = true) :
    ∃ pre s, (githubDownloadAttempts false cfg ep).2
        = [.bearer, .legacyToken, .nugetApiKey] ++ (pre ++ [s])
      ∧ (∀ x ∈ pre ++ [s], x.isBasic = true)
      ∧ (∀ x ∈ pre, ep.status x ≠ 200)
      ∧ ep.status s = 200 ∧ ep.archiveOk s = true := by
  have hv3 : tryAuthList ep nugetV3Schemes = (false, nugetV3Schemes) := by
    refine tryAuthList_all_fail ep _ ?_
    intro s hs
    simp only [nugetV3Schemes, List.mem_cons, List.mem_singleton,
      List.not_mem_nil, or_false] at hs
    rcases hs with rfl | rfl | rfl
    · exact hb
    · exact hl
    · exact hk
  unfold githubDownloadAttempts at hsucc ⊢
  rw [if_neg (by simp)] at hsucc ⊢
  simp only [hv3] at hsucc ⊢
  rw [if_neg (by simp)] at hsucc ⊢
  have h3 : (tryAuthList ep (basicSchemes cfg)).1 = true := by
    simpa using hsucc
  obtain ⟨pre, s, htr, hpre, hs200, hok⟩ := tryAuthList_success ep _ h3
  refine ⟨pre, s, by simp [nugetV3Schemes, htr], ?_, hpre, hs200, hok⟩
  intro x hx
  have hmem : x ∈ (tryAuthList ep (basicSchemes cfg)).2 := by
    rw [htr]; exact hx
  exact basicSchemes_isBasic cfg x
    ((tryAuthList_trace_isPrefix ep (basicSchemes cfg)).subset hmem)

/-- Witness for the amended C4: against an endpoint that accepts only
Basic auth, the trace is Bearer, legacy token, `X-NuGet-ApiKey`, then the
successful Basic attempt. -/
theorem github_auth_order_amended_witness :
    ∃ pre s, (githubDownloadAttempts false none epBasicOnly).2
        = [.bearer, .legacyToken, .nugetApiKey] ++ (pre ++ [s])
      ∧ (∀ x ∈ pre ++ [s], x.isBasic = true)
      ∧ (∀ x ∈ pre, epBasicOnly.status x ≠ 200)
      ∧ epBasicOnly.status s = 200 ∧ epBasicOnly.archiveOk s = true :=
  github_auth_order_amended none epBasicOnly (by decide) (by decide)
    (by decide) (by decide)

/-- The attempt loop depends only on which schemes answer 200 and on
archive processability — never on whether a failing status is 401/403. -/
theorem tryAuthList_status_congr (ep ep' : DownloadEndpoint)
    (h200 : ∀ s, ep.status s = 200 ↔ ep'.status s = 200)
    (hok : ∀ s, ep.archiveOk s = ep'.archiveOk s) :
    ∀ l, tryAuthList ep l = tryAuthList ep' l := by
  intro l
  induction l with
  | nil => rfl
  | cons s rest ih =>
    unfold tryAuthList
    by_cases hs : ep.status s = 200
    · rw [if_pos hs, if_pos ((h200 s).mp hs), hok s]
    · rw [if_neg hs, if_neg (fun h => hs ((h200 s).mpr h)), ih]

/-- C6 counterexample: the Bearer attempt receives a 401, yet the
resolver does not terminate — it tries the next scheme and succeeds via
the legacy-token header. -/
theorem auth_error_does_not_terminate :
    epUnauthorizedBearer.status .bearer = 401
    ∧ githubDownloadAttempts false none epUnauthorizedBearer
      = (true, [.bearer, .legacyToken]) := by
  refine ⟨by decide, by decide⟩

/-- C6 amended: during the download attempts every non-200 status —
including 401 and 403 — simply moves on to the next authentication
scheme: the attempt loop's outcome depends only on which schemes answer
200 (and on archive processability), and when every scheme fails the
whole list is walked; an HTTP error raised by the version-list fetch, by
contrast, terminates the resolver by synthesizing a placeholder whose
reason is "Private package - authentication required". -/
theorem auth_error_handling_amended :
    (∀ (m1 : Bool) (cfg : Option Str) (ep ep' : DownloadEndpoint),
      (∀ s, ep.status s = 200 ↔ ep'.status s = 200) →
      (∀ s, ep.archiveOk s = ep'.archiveOk s) →
      githubDownloadAttempts m1 cfg ep = githubDownloadAttempts m1 cfg ep')
    ∧ (∀ (ep : DownloadEndpoint) (l : List AuthScheme),
        (∀ s ∈ l, ep.status s ≠ 200) → tryAuthList ep l = (false, l))
    ∧ (∀ (code : Nat) (m1 : Bool) (cfg : Option Str) (ep : DownloadEndpoint),
        downloadNugetPackageFromGithub true (.httpError code) m1 cfg ep
          = ⟨true, some reasonAuthRequired⟩) := by
  refine ⟨fun m1 cfg ep ep' h200 hok => ?_, tryAuthList_all_fail, fun _ _ _ _ => rfl⟩
  unfold githubDownloadAttempts
  rw [tryAuthList_status_congr ep ep' h200 hok,
    tryAuthList_status_congr ep ep' h200 hok]

/-- Witness for the amended C6: a 401-answering and a 403-answering
endpoint produce identical attempt traces and results, and the
version-list HTTP-error path synthesizes the authentication placeholder. -/
theorem auth_error_handling_amended_witness :
    githubDownloadAttempts false none epUnauthorizedBearer
      = githubDownloadAttempts false none epForbiddenBearer
    ∧ downloadNugetPackageFromGithub true (.httpError 401) false none epAll404
      = ⟨true, some reasonAuthRequired⟩ :=
  ⟨auth_error_handling_amended.1 false none epUnauthorizedBearer epForbiddenBearer
      (fun s => by cases s <;> simp [epUnauthorizedBearer, epForbiddenBearer])
      (fun s => by cases s <;> rfl),
    auth_error_handling_amended.2.2 401 false none epAll404⟩

/-- C7 counterexample: with a valid token, a non-empty version list and an
endpoint answering 404 (no auth error) to every scheme — Bearer, legacy
token, `X-NuGet-ApiKey` and both Basic usernames — the resolver returns
failure and synthesizes no placeholder at all. -/
theorem no_placeholder_when_all_schemes_fail :
    downloadNugetPackageFromGithub true (.ok (strOf "1.2.0")) false none epAll404
      = ⟨false, none⟩
    ∧ epAll404.status .bearer = 404
    ∧ epAll404.status .legacyToken = 404
    ∧ epAll404.status .nugetApiKey = 404
    ∧ epAll404.status (.basicAuth (strOf "attieretief")) = 404
    ∧ epAll404.status (.basicAuth (strOf "token")) = 404 := by
  refine ⟨by decide, rfl, rfl, rfl, rfl, rfl⟩

/-- An infix of the right part of an append is an infix of the whole. -/
theorem isInfix_append_right {l E : Str} (X : Str) (h : List.IsInfix l E) :
    List.IsInfix l (X ++ E) := by
  obtain ⟨s, t, rfl⟩ := h
  exact ⟨X ++ s, t, by simp⟩

set_option maxRecDepth 8000 in
/-- C7 amended: a placeholder is synthesized exactly when the version-list
step raises to the outer handlers (HTTP error → reason "Private package -
authentication required", other exception → reason "Download failed", both
reported as success); when the version list is obtained and every
authentication scheme fails without an exception escaping, the resolver
returns failure with no placeholder; a synthesized placeholder's content
does describe the package name, the reason, and manual-retrieval
instructions. -/
theorem github_placeholder_amended :
    (∀ (tokenPresent : Bool) (vo : VersionsOutcome) (m1 : Bool)
        (cfg : Option Str) (ep : DownloadEndpoint),
      (downloadNugetPackageFromGithub tokenPresent vo m1 cfg ep).placeholderReason.isSome
        = (tokenPresent && vo.raisesToOuter))
    ∧ (∀ (v : Str) (m1 : Bool) (cfg : Option Str) (ep : DownloadEndpoint),
        downloadNugetPackageFromGithub true (.ok v) m1 cfg ep
          = ⟨(githubDownloadAttempts m1 cfg ep).1, none⟩)
    ∧ (∀ (code : Nat) (m1 : Bool) (cfg : Option Str) (ep : DownloadEndpoint),
        downloadNugetPackageFromGithub true (.httpError code) m1 cfg ep
          = ⟨true, some reasonAuthRequired⟩
        ∧ downloadNugetPackageFromGithub true .otherError m1 cfg ep
          = ⟨true, some reasonDownloadFailed⟩)
    ∧ (∀ pkg pub nm reason,
        List.IsInfix pkg (placeholderContent pkg pub nm reason)
        ∧ List.IsInfix reason (placeholderContent pkg pub nm reason)
        ∧ List.IsInfix (strOf "download manually")
            (placeholderContent pkg pub nm reason)) := by
  refine ⟨fun tokenPresent vo m1 cfg ep => ?_, fun _ _ _ _ => rfl,
    fun _ _ _ _ => ⟨rfl, rfl⟩, fun pkg pub nm reason => ⟨?_, ?_, ?_⟩⟩
  · cases tokenPresent <;> cases vo <;> rfl
  · exact ⟨strOf "// LINC Package: ",
      strOf "\n// Publisher: " ++ pub ++ strOf "\n// Name: " ++ nm
        ++ strOf "\n// Status: " ++ reason ++ placeholderTail,
      by simp [placeholderContent, List.append_assoc]⟩
  · exact ⟨strOf "// LINC Package: " ++ pkg ++ strOf "\n// Publisher: "
      ++ pub ++ strOf "\n// Name: " ++ nm ++ strOf "\n// Status: ",
      placeholderTail, by simp [placeholderContent, List.append_assoc]⟩
  · have htail : List.IsInfix (strOf "download manually") placeholderTail := by
      decide
    have : placeholderContent pkg pub nm reason
        = (strOf "// LINC Package: " ++ pkg ++ strOf "\n// Publisher: "
          ++ pub ++ strOf "\n// Name: " ++ nm ++ strOf "\n// Status: "
          ++ reason) ++ placeholderTail := by
      simp [placeholderContent, List.append_assoc]
    rw [this]
    exact isInfix_append_right _ htail

/-! Helper lemmas about the filesystem model. -/

/-- Updating an existing entry makes `getFile` return the new content. -/
theorem getFile_map_update (n : Str) (c : List Nat) :
    ∀ fs : FS, fs.any (fun e => e.1 == n) = true →
      getFile (fs.map (fun e => if e.1 == n then (n, c) else e)) n = some c := by
  intro fs
  induction fs with
  | nil => intro h; simp at h
  | cons e fs ih =>
    intro h
    simp only [List.map_cons]
    by_cases he : e.1 == n
    · rw [if_pos he]
      simp [getFile, List.find?_cons]
    · rw [if_neg he]
      have h' : fs.any (fun e => e.1 == n) = true := by
        simp only [List.any_cons, he, Bool.false_or] at h
        exact h
      simpa [getFile, List.find?_cons, he] using ih h'

/-- Appending a fresh entry makes `getFile` return its content. -/
theorem getFile_append_new (n : Str) (c : List Nat) :
    ∀ fs : FS, fs.any (fun e => e.1 == n) = false →
      getFile (fs ++ [(n, c)]) n = some c := by
  intro fs
  induction fs with
  | nil => intro _; simp [getFile, List.find?_cons]
  | cons e fs ih =>
    intro h
    simp only [List.any_cons, Bool.or_eq_false_iff] at h
    simpa [getFile, List.find?_cons, h.1] using
      ih (by simpa using h.2)

/-- `write_bytes` semantics: after a write the file holds the new bytes,
whatever was there before. -/
theorem getFile_setFile_self (fs : FS) (n : Str) (c : List Nat) :
    getFile (setFile fs n c) n = some c := by
  unfold setFile
  by_cases h : fs.any (fun e => e.1 == n)
  · rw [if_pos h]; exact getFile_map_update n c fs h
  · rw [if_neg h]
    exact getFile_append_new n c fs (by rwa [Bool.not_eq_true] at h)

/-- A write preserves the presence of an `*.app`-named file. -/
theorem hasApp_setFile {fs : FS} (n : Str) (c : List Nat)
    (h : hasAppFile fs) : hasAppFile (setFile fs n c) := by
  obtain ⟨e, he, happ⟩ := h
  unfold setFile
  by_cases hany : fs.any (fun x => x.1 == n)
  · rw [if_pos hany]
    refine ⟨(fun x => if x.1 == n then (n, c) else x) e,
      List.mem_map_of_mem _ he, ?_⟩
    simp only []
    by_cases hen : (e.1 == n) = true
    · rw [if_pos hen]
      have hn : e.1 = n := by simpa using hen
      exact hn ▸ happ
    · rw [if_neg hen]
      exact happ
  · rw [if_neg hany]
    exact ⟨e, List.mem_append_left _ he, happ⟩

/-- Writing a file with an `*.app` name establishes the presence of an
`*.app`-named file. -/
theorem hasApp_setFile_of_appNamed {n : Str} (fs : FS) (c : List Nat)
    (h : appNamed n = true) : hasAppFile (setFile fs n c) := by
  unfold setFile
  by_cases hany : fs.any (fun x => x.1 == n)
  · rw [if_pos hany]
    obtain ⟨e, he, hen⟩ := List.any_eq_true.mp hany
    refine ⟨(fun x => if x.1 == n then (n, c) else x) e,
      List.mem_map_of_mem _ he, ?_⟩
    simp only []
    rw [if_pos hen]
    exact h
  · rw [if_neg hany]
    exact ⟨(n, c), List.mem_append_right _ (by simp), h⟩

/-- The base filename of an `*.app` archive member is `*.app`-named. -/
theorem appNamed_basename {nm : Str} (h : appNamed nm = true) :
    appNamed (basename nm) = true := by
  unfold appNamed at h ⊢
  obtain ⟨u, rfl⟩ := List.isSuffixOf_iff_suffix.mp h
  refine List.isSuffixOf_iff_suffix.mpr ?_
  unfold basename
  rw [List.reverse_append]
  have hrev : (strOf ".app").reverse = 'p' :: 'p' :: 'a' :: '.' :: ([] : Str) := by
    decide
  rw [hrev]
  have h1 : (('p' : Char) != '/') = true := by decide
  have h2 : (('a' : Char) != '/') = true := by decide
  have h3 : (('.' : Char) != '/') = true := by decide
  simp only [List.cons_append, List.nil_append, List.takeWhile_cons, h1, h2,
    h3, if_true]
  have hs : strOf ".app" = '.' :: 'a' :: 'p' :: 'p' :: ([] : Str) := by decide
  exact ⟨(List.takeWhile (fun c => c != '/') u.reverse).reverse,
    by rw [hs]; simp⟩

/-- The extraction fold preserves the presence of an `*.app` file. -/
theorem hasApp_extract_foldl (l : List (Str × List Nat)) :
    ∀ fs : FS, hasAppFile fs →
      hasAppFile (l.foldl (fun acc e => setFile acc (basename e.1) e.2) fs) := by
  induction l with
  | nil => intro fs h; exact h
  | cons e l ih =>
    intro fs h
    exact ih _ (hasApp_setFile _ _ h)

/-- A successful extraction leaves an `*.app` file in the directory. -/
theorem hasApp_of_extract_success {fs : FS} {entries : List (Str × List Nat)}
    (h : (extractAppFiles fs entries).1 = true) :
    hasAppFile (extractAppFiles fs entries).2 := by
  unfold extractAppFiles at h ⊢
  by_cases he : (entries.filter (fun e => appNamed e.1)).isEmpty
  · rw [if_pos he] at h; exact absurd h (by simp)
  · rw [if_neg he] at h ⊢
    obtain ⟨e0, rest, hl⟩ : ∃ e0 rest,
        entries.filter (fun e => appNamed e.1) = e0 :: rest := by
      rcases hfe : entries.filter (fun e => appNamed e.1) with _ | ⟨e0, rest⟩
      · rw [hfe] at he; simp at he
      · exact ⟨e0, rest, hfe⟩
    rw [hl]
    have hmem : e0 ∈ entries.filter (fun e => appNamed e.1) := by
      rw [hl]; exact List.mem_cons_self e0 rest
    have h0 : appNamed e0.1 = true := (List.mem_filter.mp hmem).2
    simp only [List.foldl_cons]
    exact hasApp_extract_foldl rest _
      (hasApp_setFile_of_appNamed _ _ (appNamed_basename h0))

/-- Extraction preserves the presence of an `*.app` file. -/
theorem hasApp_extract_preserve {fs : FS} {entries : List (Str × List Nat)}
    (h : hasAppFile fs) : hasAppFile (extractAppFiles fs entries).2 := by
  unfold extractAppFiles
  by_cases he : (entries.filter (fun e => appNamed e.1)).isEmpty
  · rw [if_pos he]; exact h
  · rw [if_neg he]
    exact hasApp_extract_foldl _ _ h

set_option maxRecDepth 20000 in
/-- C1 counterexample: a 1001-byte sentinel `test.app` is pre-seeded in
the output directory, an archive member extracting to the same filename
arrives, and extraction overwrites the sentinel with the new bytes rather
than skipping the entry. -/
theorem extraction_overwrites_counterexample :
    sentinelContent.length > 1000
    ∧ getFile sentinelFS (strOf "test.app") = some sentinelContent
    ∧ (extractAppFiles sentinelFS clobberEntries).1 = true
    ∧ getFile (extractAppFiles sentinelFS clobberEntries).2 (strOf "test.app")
      = some [1, 2, 3]
    ∧ ([1, 2, 3] : List Nat) ≠ sentinelContent := by
  refine ⟨by decide, by decide, by decide, by decide, by decide⟩

/-- C1 amended: the extraction loop writes every matching archive member
unconditionally — a member whose base filename collides with an existing
artifact replaces that artifact's bytes; idempotence holds only at the
phase level: when the output directory already holds a plausible
(`*.app`, above-1000-byte) artifact, the platform-symbol phase returns
success without fetching or modifying anything. -/
theorem extraction_overwrites_amended :
    (∀ (fs : FS) (e : Str) (c : List Nat), appNamed e = true →
      getFile (extractAppFiles fs [(e, c)]).2 (basename e) = some c)
    ∧ (∀ (env : MSEnv) (fs : FS), (checkExistingSymbols fs).isEmpty = false →
        downloadMicrosoftSymbolsSimple env fs = (true, fs)) := by
  constructor
  · intro fs e c he
    unfold extractAppFiles
    simp only [List.filter_cons, he, List.filter_nil, if_true]
    simp only [List.isEmpty_cons, List.foldl_cons, List.foldl_nil]
    exact getFile_setFile_self fs (basename e) c
  · intro env fs h
    unfold downloadMicrosoftSymbolsSimple
    rw [if_neg (by simp [h])]

set_option maxRecDepth 20000 in
/-- Witness for the amended C1: a single-member archive overwrites the
sentinel, and the pre-seeded directory short-circuits the platform phase. -/
theorem extraction_overwrites_amended_witness :
    getFile (extractAppFiles sentinelFS [(strOf "symbols/test.app", [9])]).2
        (basename (strOf "symbols/test.app")) = some [9]
    ∧ downloadMicrosoftSymbolsSimple ⟨true, [none]⟩ sentinelFS
      = (true, sentinelFS) :=
  ⟨extraction_overwrites_amended.1 sentinelFS (strOf "symbols/test.app") [9]
      (by decide),
    extraction_overwrites_amended.2 ⟨true, [none]⟩ sentinelFS (by decide)⟩

/-- Extraction succeeds exactly when the archive holds an `.app` member. -/
theorem extractAppFiles_fst (fs : FS) (entries : List (Str × List Nat)) :
    (extractAppFiles fs entries).1
      = !(entries.filter (fun e => appNamed e.1)).isEmpty := by
  unfold extractAppFiles
  by_cases he : (entries.filter (fun e => appNamed e.1)).isEmpty
  · rw [if_pos he, he]; rfl
  · rw [if_neg he, Bool.eq_false_iff.mpr he]; rfl

/-- One platform package succeeds exactly when its archive was fetched
and holds an `.app` member. -/
theorem processPackage_fst (fs : FS) (a : Option (List (Str × List Nat))) :
    (processPackage fs a).1 = true ↔
      ∃ entries, a = some entries
        ∧ (entries.filter (fun e => appNamed e.1)).isEmpty = false := by
  cases a with
  | none => simp [processPackage]
  | some entries =>
    simp only [processPackage, extractAppFiles_fst, Bool.not_eq_true',
      Option.some.injEq]
    constructor
    · intro h; exact ⟨entries, rfl, h⟩
    · rintro ⟨e2, rfl, h⟩; exact h

/-- A failed platform package leaves the directory unchanged. -/
theorem processPackage_snd_of_fail {fs : FS} {a : Option (List (Str × List Nat))}
    (h : (processPackage fs a).1 = false) : (processPackage fs a).2 = fs := by
  cases a with
  | none => rfl
  | some entries =>
    rw [show processPackage fs (some entries) = extractAppFiles fs entries
      from rfl] at h ⊢
    unfold extractAppFiles at h ⊢
    by_cases he : (entries.filter (fun e => appNamed e.1)).isEmpty
    · rw [if_pos he]
    · rw [if_neg he] at h; simp at h

/-- The platform-package fold counts a positive number of successes
exactly when it started positive or some archive holds an `.app` member. -/
theorem nuget_foldl_pos :
    ∀ (archs : List (Option (List (Str × List Nat)))) (n : Nat) (fs : FS),
      0 < (archs.foldl (fun (acc : Nat × FS) a =>
          let p := processPackage acc.2 a
          (acc.1 + (if p.1 then 1 else 0), p.2)) (n, fs)).1 ↔
        (0 < n ∨ ∃ entries, some entries ∈ archs
          ∧ (entries.filter (fun e => appNamed e.1)).isEmpty = false) := by
  intro archs
  induction archs with
  | nil => intro n fs; simp
  | cons a archs ih =>
    intro n fs
    rw [List.foldl_cons]
    have hδ : ∀ m : Nat, 0 < m + (if (processPackage fs a).1 then 1 else 0) ↔
        0 < m ∨ (processPackage fs a).1 = true := by
      intro m
      cases h : (processPackage fs a).1 <;> simp [h]
    rw [ih]
    constructor
    · rintro (hn | hb)
      · rcases (hδ n).mp hn with h | h
        · exact Or.inl h
        · obtain ⟨entries, ha, hne⟩ := (processPackage_fst fs a).mp h
          exact Or.inr ⟨entries, by simp [ha], hne⟩
      · obtain ⟨entries, hm, hne⟩ := hb
        exact Or.inr ⟨entries, List.mem_cons_of_mem _ hm, hne⟩
    · rintro (hn | ⟨entries, hm, hne⟩)
      · exact Or.inl ((hδ n).mpr (Or.inl hn))
      · rcases List.mem_cons.mp hm with heq | hm
        · exact Or.inl ((hδ n).mpr (Or.inr
            ((processPackage_fst fs a).mpr ⟨entries, heq.symm, hne⟩)))
        · exact Or.inr ⟨entries, hm, hne⟩

/-- Through the platform-package fold, a positive success count implies
an `*.app` file is present at the end. -/
theorem nuget_foldl_hasApp :
    ∀ (archs : List (Option (List (Str × List Nat)))) (n : Nat) (fs : FS),
      (0 < n → hasAppFile fs) →
      0 < (archs.foldl (fun (acc : Nat × FS) a =>
          let p := processPackage acc.2 a
          (acc.1 + (if p.1 then 1 else 0), p.2)) (n, fs)).1 →
      hasAppFile (archs.foldl (fun (acc : Nat × FS) a =>
          let p := processPackage acc.2 a
          (acc.1 + (if p.1 then 1 else 0), p.2)) (n, fs)).2 := by
  intro archs
  induction archs with
  | nil => intro n fs hinv hpos; exact hinv hpos
  | cons a archs ih =>
    intro n fs hinv
    rw [List.foldl_cons]
    refine ih _ _ ?_
    intro hpos
    cases hpp : (processPackage fs a).1 with
    | true =>
      cases a with
      | none => simp [processPackage] at hpp
      | some entries => exact hasApp_of_extract_success hpp
    | false =>
      rw [processPackage_snd_of_fail hpp]
      refine hinv ?_
      simpa [hpp] using hpos

/-- `download_symbols_via_nuget` succeeds exactly when the feeds were set
up and some fetched archive holds an `.app` member. -/
theorem viaNuget_fst (env : MSEnv) (fs : FS) :
    (downloadSymbolsViaNuget env fs).1 = true ↔
      (env.setupOk = true ∧ ∃ entries, some entries ∈ env.packageArchives
        ∧ (entries.filter (fun e => appNamed e.1)).isEmpty = false) := by
  unfold downloadSymbolsViaNuget
  by_cases hs : env.setupOk
  · rw [if_pos hs]
    simp only [decide_eq_true_eq, nuget_foldl_pos, Nat.lt_irrefl, false_or, hs,
      true_and]
  · rw [if_neg hs]
    simp [hs]

/-- A successful `download_symbols_via_nuget` leaves an `*.app` file. -/
theorem viaNuget_hasApp {env : MSEnv} {fs : FS}
    (h : (downloadSymbolsViaNuget env fs).1 = true) :
    hasAppFile (downloadSymbolsViaNuget env fs).2 := by
  unfold downloadSymbolsViaNuget at h ⊢
  by_cases hs : env.setupOk
  · rw [if_pos hs] at h ⊢
    refine nuget_foldl_hasApp _ 0 fs (by omega) ?_
    simpa using h
  · rw [if_neg hs] at h
    exact absurd h (by simp)

/-- The platform phase succeeds exactly when plausible symbols already
exist or the NuGet download produced some. -/
theorem msSimple_fst (env : MSEnv) (fs : FS) :
    (downloadMicrosoftSymbolsSimple env fs).1 = true ↔
      ((checkExistingSymbols fs).isEmpty = false
        ∨ (env.setupOk = true ∧ ∃ entries, some entries ∈ env.packageArchives
            ∧ (entries.filter (fun e => appNamed e.1)).isEmpty = false)) := by
  unfold downloadMicrosoftSymbolsSimple
  by_cases he : (checkExistingSymbols fs).isEmpty
  · rw [if_pos he, viaNuget_fst]
    simp [he]
  · rw [if_neg he]
    simp [Bool.eq_false_iff.mpr he]

/-- A successful platform phase leaves an `*.app` file. -/
theorem msSimple_hasApp {env : MSEnv} {fs : FS}
    (h : (downloadMicrosoftSymbolsSimple env fs).1 = true) :
    hasAppFile (downloadMicrosoftSymbolsSimple env fs).2 := by
  unfold downloadMicrosoftSymbolsSimple at h ⊢
  by_cases he : (checkExistingSymbols fs).isEmpty
  · rw [if_pos he] at h ⊢
    exact viaNuget_hasApp h
  · rw [if_neg he]
    have hne : checkExistingSymbols fs ≠ [] := by
      simpa [List.isEmpty_iff] using he
    obtain ⟨e, hee⟩ := List.exists_mem_of_ne_nil _ hne
    unfold checkExistingSymbols at hee
    have h1 := List.mem_filter.mp hee
    have h2 := List.mem_filter.mp h1.1
    exact ⟨e, h2.1, h2.2⟩

/-- The dependency phase's writes preserve the presence of an `*.app`
file. -/
theorem hasApp_applyWrites {fs : FS} (ws : List (Str × List Nat))
    (h : hasAppFile fs) : hasAppFile (applyWrites fs ws) := by
  induction ws generalizing fs with
  | nil => exact h
  | cons w ws ih => exact ih (hasApp_setFile _ _ h)

/-- A directory has an `*.app` file exactly when the `*.app` glob is
non-empty. -/
theorem hasApp_iff_glob (fs : FS) :
    hasAppFile fs ↔ (fs.filter (fun e => appNamed e.1)).isEmpty = false := by
  constructor
  · rintro ⟨e, he, happ⟩
    have : e ∈ fs.filter (fun e => appNamed e.1) := List.mem_filter.mpr ⟨he, happ⟩
    rcases hf : fs.filter (fun e => appNamed e.1) with _ | _
    · rw [hf] at this; simp at this
    · rw [hf]; rfl
  · intro h
    have hne : fs.filter (fun e => appNamed e.1) ≠ [] := by
      simpa [List.isEmpty_iff] using Bool.eq_false_iff.mp h
    obtain ⟨e, he⟩ := List.exists_mem_of_ne_nil _ hne
    have := List.mem_filter.mp he
    exact ⟨e, this.1, this.2⟩

/-- C8: the orchestrator's overall result is failure exactly when the
platform phase yields no usable artifact — neither a plausible existing
symbol file nor a downloaded archive with an `.app` member (in particular
when every platform download fails) — and the result is entirely
independent of whatever files the custom-dependency phase writes, so
per-dependency failures alone never fail the run. -/
theorem download_run_failure_iff (env : MSEnv)
    (depWrites : List (Str × List Nat)) (fs : FS) :
    ((downloadSymbolsRun env depWrites fs).1 = false ↔
      ((checkExistingSymbols fs).isEmpty = true
        ∧ (env.setupOk = false
          ∨ ∀ entries, some entries ∈ env.packageArchives →
              (entries.filter (fun e => appNamed e.1)).isEmpty = true)))
    ∧ (∀ w2, (downloadSymbolsRun env depWrites fs).1
        = (downloadSymbolsRun env w2 fs).1) := by
  have hrun : ∀ w, (downloadSymbolsRun env w fs).1
      = (downloadMicrosoftSymbolsSimple env fs).1 := by
    intro w
    unfold downloadSymbolsRun
    cases hms : (downloadMicrosoftSymbolsSimple env fs).1 with
    | false => simp [hms]
    | true =>
      have h1 : hasAppFile (applyWrites (downloadMicrosoftSymbolsSimple env fs).2 w) :=
        hasApp_applyWrites _ (msSimple_hasApp hms)
      have h2 := (hasApp_iff_glob _).mp h1
      simp [hms, h2]
  refine ⟨?_, fun w2 => (hrun depWrites).trans (hrun w2).symm⟩
  rw [hrun depWrites, Bool.eq_false_iff, Ne, msSimple_fst]
  rw [not_or]
  constructor
  · rintro ⟨hA, hB⟩
    refine ⟨by simpa using hA, ?_⟩
    by_cases hs : env.setupOk
    · refine Or.inr ?_
      intro entries hmem
      by_contra hne
      exact hB ⟨hs, entries, hmem, by simpa using hne⟩
    · exact Or.inl (by simpa using hs)
  · rintro ⟨hA, hB⟩
    refine ⟨by simp [hA], ?_⟩
    rintro ⟨hs, entries, hmem, hne⟩
    rcases hB with hB | hB
    · rw [hs] at hB; simp at hB
    · rw [hB entries hmem] at hne; simp at hne

/-- Witness for C8: a run whose feeds are up but whose every platform
package fails, against an empty directory, fails overall even though the
dependency phase wrote an artifact file. -/
theorem download_run_failure_iff_witness :
    (downloadSymbolsRun ⟨true, [none, none, none, none]⟩
        [(strOf "dep_github.app", [1, 2])] []).1 = false :=
  (download_run_failure_iff ⟨true, [none, none, none, none]⟩
      [(strOf "dep_github.app", [1, 2])] []).1.mpr
    ⟨rfl, Or.inr (fun entries h => by simp at h)⟩

/-- Witness for the amended C7: a version-list HTTP error yields the
authentication placeholder, an exception yields the download-failed
placeholder, and a clean not-found run yields no placeholder. -/
theorem github_placeholder_amended_witness :
    downloadNugetPackageFromGithub true (.httpError 403) false none epAll404
      = ⟨true, some reasonAuthRequired⟩
    ∧ downloadNugetPackageFromGithub true .otherError false none epAll404
      = ⟨true, some reasonDownloadFailed⟩
    ∧ (downloadNugetPackageFromGithub true (.ok (strOf "2.0"))
        false none epAll404).placeholderReason.isSome = false :=
  ⟨(github_placeholder_amended.2.2.1 403 false none epAll404).1,
    (github_placeholder_amended.2.2.1 0 false none epAll404).2,
    github_placeholder_amended.1 true (.ok (strOf "2.0")) false none epAll404⟩

/-- Witness for the amended C9: with an already-lowercase version the
source URL coincides with the spec's all-lowercase form. -/
theorem buildDownloadUrl_amended_witness :
    buildDownloadUrl (strOf "https://feed") (strOf "Pkg") (strOf "24.0.1")
      = buildDownloadUrlSpec (strOf "https://feed") (strOf "Pkg") (strOf "24.0.1") :=
  (buildDownloadUrl_amended (strOf "https://feed") (strOf "Pkg")
      (strOf "24.0.1")).2.mpr (by decide)

/-- Witness for C10: the concrete LINC fallback filenames end in "_app"
and escape both the `*.app` glob and the existing-symbols check. -/
theorem github_filenames_underscore_app_witness :
    (strOf "_app").isSuffixOf (githubAppFilename
        (strOf "Linc Communications (Pty) Ltd") (strOf "Test Extension")) = true
    ∧ appNamed (githubAppFilename
        (strOf "Linc Communications (Pty) Ltd") (strOf "Test Extension")) = false
    ∧ appNamed (githubPlaceholderFilename
        (strOf "Linc Communications (Pty) Ltd") (strOf "Test Extension")) = false :=
  ⟨(github_filenames_underscore_app
      (strOf "Linc Communications (Pty) Ltd") (strOf "Test Extension")).2.1,
    (github_filenames_underscore_app
      (strOf "Linc Communications (Pty) Ltd") (strOf "Test Extension")).2.2.1,
    (github_filenames_underscore_app
      (strOf "Linc Communications (Pty) Ltd") (strOf "Test Extension")).2.2.2.2.2.1⟩

end FastALBuilder
